import Mathlib

/-!
Verification of the natural-language specification of the one-versus-all
squared-hinge SVM trainer in `src/solution.py` (class `SVM`).

The numeric arrays of the program are embedded as matrices over `ℚ` indexed by
`Fin`; fallible numpy operations (indexed assignment that can raise
`IndexError`) return `Option`.  The single genuinely irrational quantity the
program computes, `np.linalg.norm(w, ord=2)` — the largest singular value of a
2-D array — is embedded through Mathlib's L2 operator norm on real matrices.
-/

namespace SVMSpec

open Matrix (transpose)
open scoped Matrix

/-- Numpy integer indexing into an axis of size `m`: an index `k` with
`0 ≤ k < m` addresses position `k`, a negative `k` with `-m ≤ k` wraps around
to position `m + k`, and anything else raises `IndexError` (modelled `none`). -/
def npIdx (m : ℕ) (k : ℤ) : Option (Fin m) :=
  if h : 0 ≤ k ∧ k < (m : ℤ) then some ⟨k.toNat, by omega⟩
  else if h2 : -(m : ℤ) ≤ k ∧ k < 0 then some ⟨(k + m).toNat, by omega⟩
  else none

/-- `SVM.make_one_versus_all_labels(y, m)`: starts from an `n × m` array of
`-1` entries and, for each row `i`, assigns `ans[i, y[i]] = 1` with numpy
index semantics.  The loop raises `IndexError` at the first row whose label
is outside `[-m, m)`, in which case no array is produced. -/
def make_one_versus_all_labels {n : ℕ} (y : Fin n → ℤ) (m : ℕ) :
    Option (Matrix (Fin n) (Fin m) ℤ) :=
  if h : ∀ i, (npIdx m (y i)).isSome then
    some (Matrix.of fun i j => if j = (npIdx m (y i)).get (h i) then 1 else -1)
  else none

/-- `np.argmax` on a 1-D array: the index of the first occurrence of the
maximum value (numpy scans left to right and keeps the first maximum). -/
def npArgmax {α : Type*} [LinearOrder α] : List α → ℕ
  | [] => 0
  | x :: xs => (x :: xs).indexOf ((x :: xs).foldl max x)

/-- Row `i` of a matrix as the 1-D array numpy's `argmax(..., axis=1)` scans. -/
def rowList {n m : ℕ} {α : Type*} (A : Matrix (Fin n) (Fin m) α) (i : Fin n) : List α :=
  List.ofFn fun j => A i j

/-- The sum `np.sum(np.maximum(0, 2 - (x @ w) * y) ** 2)` over all `n·m`
entries, from `SVM.compute_loss`. -/
def hingeSqSum {n F m : ℕ} (x : Matrix (Fin n) (Fin F) ℚ)
    (w : Matrix (Fin F) (Fin m) ℚ) (y : Matrix (Fin n) (Fin m) ℚ) : ℚ :=
  ∑ i, ∑ j, max 0 (2 - (x * w) i j * y i j) ^ 2

/-- `np.linalg.norm(w, ord=2)` for a 2-D array `w`: the matrix 2-norm, i.e.
the largest singular value, i.e. the operator norm of the induced linear map
between Euclidean spaces. -/
noncomputable def npLinalgNorm2 {a b : ℕ} (w : Matrix (Fin a) (Fin b) ℚ) : ℝ :=
  ‖(Matrix.toEuclideanLin (w.map fun q => (q : ℝ))).toContinuousLinearMap‖

/-- `SVM.compute_loss(x, y)`: `1/n * np.sum(np.maximum(0, 2 - (x @ w) * y)**2)
plus `C/2 * np.sum(np.linalg.norm(w, ord=2)**2)` (the `np.sum` there is applied
to a 0-d array and is the identity). -/
noncomputable def compute_loss {n F m : ℕ} (x : Matrix (Fin n) (Fin F) ℚ)
    (y : Matrix (Fin n) (Fin m) ℚ) (w : Matrix (Fin F) (Fin m) ℚ) (C : ℚ) : ℝ :=
  ((1 / (n : ℚ) * hingeSqSum x w y : ℚ) : ℝ) + (C : ℝ) / 2 * npLinalgNorm2 w ^ 2

/-- `SVM.compute_gradient(x, y)`, mirroring the source line by line:
`maxes = np.maximum(0, 2 - (x @ w) * y)`, `regularization_grad = C * w`,
`a = 2 - (x @ w) * y`, `ones_or_zeros = (a > 0).astype(int)`,
`loss_grad = -2/n * (x.T @ (y * maxes * ones_or_zeros))`, and the result is
`loss_grad + regularization_grad`. -/
def compute_gradient {n F m : ℕ} (x : Matrix (Fin n) (Fin F) ℚ)
    (y : Matrix (Fin n) (Fin m) ℚ) (w : Matrix (Fin F) (Fin m) ℚ) (C : ℚ) :
    Matrix (Fin F) (Fin m) ℚ :=
  let maxes : Matrix (Fin n) (Fin m) ℚ := Matrix.of fun i j => max 0 (2 - (x * w) i j * y i j)
  let regularization_grad : Matrix (Fin F) (Fin m) ℚ := C • w
  let a : Matrix (Fin n) (Fin m) ℚ := Matrix.of fun i j => 2 - (x * w) i j * y i j
  let ones_or_zeros : Matrix (Fin n) (Fin m) ℚ := Matrix.of fun i j => if 0 < a i j then 1 else 0
  let loss_grad : Matrix (Fin F) (Fin m) ℚ :=
    (-2 / (n : ℚ)) • (xᵀ * Matrix.of fun i j => y i j * maxes i j * ones_or_zeros i j)
  loss_grad + regularization_grad

/-- A python slice `l[a:b]` of a list (with `a ≤ b ≤ len` in all uses here). -/
def pySlice {α : Type*} (l : List α) (a b : ℕ) : List α := (l.take b).drop a

/-- `range(0, l, step)` for `step ≥ 1`: the offsets `0, step, 2·step, …`
below `l`, of which there are `⌈l / step⌉ = (l + step - 1) / step`. -/
def pyRange (l step : ℕ) : List ℕ := List.range' 0 ((l + step - 1) / step) step

/-- `SVM.minibatch(iterable1, iterable2, size)`: for each `ndx` in
`range(0, len(iterable1), size)` it yields the pair of slices
`iterable1[ndx : index2], iterable2[ndx : index2]` with
`index2 = min(ndx + size, len(iterable1))`. -/
def minibatch {α β : Type*} (iterable1 : List α) (iterable2 : List β) (size : ℕ) :
    List (List α × List β) :=
  (pyRange iterable1.length size).map fun ndx =>
    (pySlice iterable1 ndx (min (ndx + size) iterable1.length),
     pySlice iterable2 ndx (min (ndx + size) iterable1.length))

/-- `SVM.infer(x)`: `y = x @ w`, `pred = np.argmax(y, axis=1)`, then
`make_one_versus_all_labels(pred, y.shape[1])`. -/
def infer {p F m : ℕ} (x : Matrix (Fin p) (Fin F) ℚ) (w : Matrix (Fin F) (Fin m) ℚ) :
    Option (Matrix (Fin p) (Fin m) ℤ) :=
  make_one_versus_all_labels (fun i => (npArgmax (rowList (x * w) i) : ℤ)) m

/-- `SVM.compute_accuracy(y_inferred, y)`: argmax-decode both arrays along
rows and return `np.sum(pred == true) / len(y)`. -/
def compute_accuracy {p m : ℕ} (y_inferred y : Matrix (Fin p) (Fin m) ℤ) : ℚ :=
  ((Finset.univ.filter fun i =>
      npArgmax (rowList y_inferred i) = npArgmax (rowList y i)).card : ℚ) / (p : ℚ)

/-! ### Properties of `npArgmax` -/

lemma le_foldl_max {α : Type*} [LinearOrder α] (xs : List α) (a : α) :
    a ≤ xs.foldl max a := by
  induction xs generalizing a with
  | nil => exact le_rfl
  | cons x xs ih => exact le_trans (le_max_left a x) (ih (max a x))

lemma mem_le_foldl_max {α : Type*} [LinearOrder α] :
    ∀ (xs : List α) (y : α), y ∈ xs → ∀ a : α, y ≤ xs.foldl max a
  | x :: xs, y, hy, a => by
    rw [List.foldl_cons]
    rcases List.mem_cons.mp hy with h | h
    · subst h
      exact le_trans (le_max_right a y) (le_foldl_max xs (max a y))
    · exact mem_le_foldl_max xs y h (max a x)

lemma foldl_max_mem {α : Type*} [LinearOrder α] :
    ∀ (xs : List α) (a : α), xs.foldl max a = a ∨ xs.foldl max a ∈ xs
  | [], _ => Or.inl rfl
  | x :: xs, a => by
    rw [List.foldl_cons]
    rcases foldl_max_mem xs (max a x) with h | h
    · rcases max_choice a x with hm | hm
      · exact Or.inl (by rw [h, hm])
      · exact Or.inr (by rw [h, hm]; exact List.mem_cons_self x xs)
    · exact Or.inr (List.mem_cons_of_mem x h)

lemma get_ne_of_lt_indexOf {α : Type*} [DecidableEq α] (l : List α) (a : α)
    (j : ℕ) (hj : j < l.length) (hlt : j < l.indexOf a) : l.get ⟨j, hj⟩ ≠ a := by
  induction l generalizing j with
  | nil => cases hj
  | cons x xs ih =>
    by_cases hxa : x = a
    · rw [List.indexOf_cons_eq xs hxa] at hlt; cases hlt
    · cases j with
      | zero => exact hxa
      | succ j =>
        rw [List.indexOf_cons_ne xs hxa] at hlt
        exact ih j (Nat.lt_of_succ_lt_succ hj) (Nat.lt_of_succ_lt_succ hlt)

/-- The scan `np.argmax` performs: on a nonempty array it returns a valid
index of a maximal entry, and every entry strictly before it is strictly
smaller (ties are broken by the first occurrence). -/
theorem npArgmax_spec {α : Type*} [LinearOrder α] (l : List α) (hl : l ≠ []) :
    ∃ h : npArgmax l < l.length,
      (∀ j (hj : j < l.length), l.get ⟨j, hj⟩ ≤ l.get ⟨npArgmax l, h⟩) ∧
      (∀ j (hj : j < npArgmax l), l.get ⟨j, Nat.lt_trans hj h⟩ < l.get ⟨npArgmax l, h⟩) := by
  match l with
  | [] => exact absurd rfl hl
  | x :: xs =>
    have hfold : (x :: xs).foldl max x = xs.foldl max x := by
      rw [List.foldl_cons, max_self]
    have hle : ∀ y ∈ x :: xs, y ≤ (x :: xs).foldl max x := by
      intro y hy
      rw [hfold]
      rcases List.mem_cons.mp hy with h | h
      · exact h ▸ le_foldl_max xs x
      · exact mem_le_foldl_max _ _ h x
    have hmem : (x :: xs).foldl max x ∈ x :: xs := by
      rw [hfold]
      rcases foldl_max_mem xs x with h | h
      · rw [h]; exact List.mem_cons_self x xs
      · exact List.mem_cons_of_mem x h
    have harg : npArgmax (x :: xs) = (x :: xs).indexOf ((x :: xs).foldl max x) := rfl
    have h : npArgmax (x :: xs) < (x :: xs).length := by
      rw [harg]; exact List.indexOf_lt_length.mpr hmem
    have hget : (x :: xs).get ⟨npArgmax (x :: xs), h⟩ = (x :: xs).foldl max x := by
      simp only [harg]; exact List.indexOf_get _
    refine ⟨h, ?_, ?_⟩
    · intro j hj
      rw [hget]
      exact hle _ (List.get_mem _ _ _)
    · intro j hj
      have hne : (x :: xs).get ⟨j, Nat.lt_trans hj h⟩ ≠ (x :: xs).foldl max x :=
        get_ne_of_lt_indexOf _ _ _ _ (harg ▸ hj)
      rw [hget]
      exact lt_of_le_of_ne (hle _ (List.get_mem _ _ _)) hne

/-- `np.argmax` is the unique first maximum: any valid index that is maximal
and strictly dominates everything before it is the argmax. -/
theorem npArgmax_eq {α : Type*} [LinearOrder α] (l : List α) (k : ℕ) (hk : k < l.length)
    (hmax : ∀ j (hj : j < l.length), l.get ⟨j, hj⟩ ≤ l.get ⟨k, hk⟩)
    (hfirst : ∀ j (hj : j < k), l.get ⟨j, Nat.lt_trans hj hk⟩ < l.get ⟨k, hk⟩) :
    npArgmax l = k := by
  have hl : l ≠ [] := by
    intro h; subst h; cases hk
  obtain ⟨h, hmax', hfirst'⟩ := npArgmax_spec l hl
  rcases Nat.lt_trichotomy (npArgmax l) k with hlt | heq | hgt
  · exact absurd (hmax' k hk) (not_le.mpr (hfirst _ hlt))
  · exact heq
  · exact absurd (hmax _ h) (not_le.mpr (hfirst' k hgt))

/-- The argmax of a one-hot row (`+1` at `k`, `-1` elsewhere) is `k`. -/
lemma npArgmax_onehot {m : ℕ} (k : Fin m) :
    npArgmax (List.ofFn fun j : Fin m => if j = k then (1 : ℤ) else -1) = (k : ℕ) := by
  set f : Fin m → ℤ := fun j => if j = k then (1 : ℤ) else -1 with hf
  have hlen : (List.ofFn f).length = m := List.length_ofFn f
  have hk : (k : ℕ) < (List.ofFn f).length := by rw [hlen]; exact k.isLt
  have hget : ∀ (j : ℕ) (hj : j < (List.ofFn f).length),
      (List.ofFn f).get ⟨j, hj⟩ = f ⟨j, hlen ▸ hj⟩ := by
    intro j hj
    rw [List.get_ofFn]
    exact congrArg f (Fin.ext rfl)
  refine npArgmax_eq _ (k : ℕ) hk ?_ ?_
  · intro j hj
    rw [hget j hj, hget (k : ℕ) hk]
    simp only [hf, Fin.eta, if_pos rfl]
    split_ifs <;> norm_num
  · intro j hj
    rw [hget j (Nat.lt_trans hj hk), hget (k : ℕ) hk]
    have hjk : (⟨j, hlen ▸ Nat.lt_trans hj hk⟩ : Fin m) ≠ k := by
      intro h
      have := congrArg Fin.val h
      simp only [Fin.val_mk] at this
      omega
    simp only [hf, Fin.eta, if_pos rfl, if_neg hjk]
    norm_num

/-! ### Properties of the one-versus-all encoder -/

lemma npIdx_of_nonneg_lt {m : ℕ} {k : ℤ} (h0 : 0 ≤ k) (hm : k < (m : ℤ)) :
    npIdx m k = some ⟨k.toNat, by omega⟩ := by
  unfold npIdx
  rw [dif_pos ⟨h0, hm⟩]

lemma npIdx_of_neg {m : ℕ} {k : ℤ} (h1 : -(m : ℤ) ≤ k) (h2 : k < 0) :
    npIdx m k = some ⟨(k + m).toNat, by omega⟩ := by
  unfold npIdx
  rw [dif_neg (by omega), dif_pos ⟨h1, h2⟩]

lemma npIdx_eq_none_iff {m : ℕ} {k : ℤ} :
    npIdx m k = none ↔ (m : ℤ) ≤ k ∨ k < -(m : ℤ) := by
  unfold npIdx
  split_ifs with h1 h2
  · simp only [reduceCtorEq, false_iff]; omega
  · simp only [reduceCtorEq, false_iff]; omega
  · simp only [true_iff]; omega

/-- On labels inside `[0, m)` the encoder succeeds and produces the matrix
with `+1` at column `y i` of row `i` and `-1` elsewhere. -/
lemma make_one_versus_all_labels_of_valid {n m : ℕ} (y : Fin n → ℤ)
    (h : ∀ i, 0 ≤ y i ∧ y i < (m : ℤ)) :
    make_one_versus_all_labels y m
      = some (Matrix.of fun (i : Fin n) (j : Fin m) => if (j : ℤ) = y i then 1 else -1) := by
  have hidx : ∀ i, npIdx m (y i)
      = some ⟨(y i).toNat, by have h1 := (h i).1; have h2 := (h i).2; omega⟩ := fun i =>
    npIdx_of_nonneg_lt (h i).1 (h i).2
  have hs : ∀ i, (npIdx m (y i)).isSome := fun i => by rw [hidx i]; rfl
  unfold make_one_versus_all_labels
  rw [dif_pos hs]
  congr 1
  ext i j
  simp only [Matrix.of_apply]
  have hget : (npIdx m (y i)).get (hs i)
      = ⟨(y i).toNat, by have h1 := (h i).1; have h2 := (h i).2; omega⟩ := by
    simp [hidx i]
  rw [hget]
  refine if_congr ?_ rfl rfl
  rw [Fin.ext_iff]
  have h1 := (h i).1
  simp only [Fin.val_mk]
  omega

/-! ### Claims C3 and C4: the one-versus-all encoder -/

/-- C3: for every positive `m` and every label vector `y` of length `n` with
values in `[0, m)`, `make_one_versus_all_labels y m` succeeds and returns the
`n × m` matrix whose row `i` is `+1` at column `y i` and `-1` at every other
column (exactly one `+1` per row), and the row argmax recovers `y i`. -/
theorem C3_encode_one_vs_all {n m : ℕ} (y : Fin n → ℤ) (hm : 0 < m)
    (hy : ∀ i, 0 ≤ y i ∧ y i < (m : ℤ)) :
    ∃ M, make_one_versus_all_labels y m = some M ∧
      (∀ i j, M i j = if (j : ℤ) = y i then 1 else -1) ∧
      (∀ i, (Finset.univ.filter fun j => M i j = 1).card = 1) ∧
      (∀ i, npArgmax (rowList M i) = (y i).toNat) := by
  refine ⟨_, make_one_versus_all_labels_of_valid y hy, fun i j => rfl, ?_, ?_⟩
  · intro i
    have hset : (Finset.univ.filter fun j : Fin m =>
        (Matrix.of fun (i : Fin n) (j : Fin m) =>
          if (j : ℤ) = y i then (1 : ℤ) else -1) i j = 1)
        = {(⟨(y i).toNat, by have h1 := (hy i).1; have h2 := (hy i).2; omega⟩ : Fin m)} := by
      ext j
      simp only [Finset.mem_filter, Finset.mem_univ, true_and, Finset.mem_singleton,
        Matrix.of_apply]
      constructor
      · intro hj
        by_cases hc : (j : ℤ) = y i
        · apply Fin.ext
          have h1 := (hy i).1
          simp only [Fin.val_mk]
          omega
        · rw [if_neg hc] at hj
          norm_num at hj
      · intro hj
        subst hj
        rw [if_pos (by have h1 := (hy i).1; simp only [Fin.val_mk]; omega)]
    rw [hset, Finset.card_singleton]
  · intro i
    have hk : (y i).toNat < m := by have h1 := (hy i).1; have h2 := (hy i).2; omega
    have hrow : rowList (Matrix.of fun (i : Fin n) (j : Fin m) =>
          if (j : ℤ) = y i then (1 : ℤ) else -1) i
        = List.ofFn fun j : Fin m => if j = (⟨(y i).toNat, hk⟩ : Fin m) then (1 : ℤ) else -1 := by
      unfold rowList
      congr 1
      funext j
      simp only [Matrix.of_apply]
      refine if_congr ?_ rfl rfl
      rw [Fin.ext_iff]
      have h1 := (hy i).1
      simp only [Fin.val_mk]
      omega
    rw [hrow, npArgmax_onehot]

/-- Witness for C3 at the concrete input `y = [0, 1]`, `m = 2`. -/
theorem C3_encode_one_vs_all_witness :
    ∃ M, make_one_versus_all_labels ![(0 : ℤ), 1] 2 = some M ∧
      (∀ i j, M i j = if (j : ℤ) = ![(0 : ℤ), 1] i then 1 else -1) ∧
      (∀ i, (Finset.univ.filter fun j => M i j = 1).card = 1) ∧
      (∀ i, npArgmax (rowList M i) = ((![(0 : ℤ), 1]) i).toNat) :=
  C3_encode_one_vs_all ![(0 : ℤ), 1] (by decide) (by decide)

/-- C4 counterexample: the claim says an out-of-range label silently yields a
row with no `+1` entry.  For `y = [2]`, `m = 2` the assignment `ans[0, 2] = 1`
raises `IndexError`, so no matrix is produced at all — there is no output row. -/
theorem C4_counterexample : make_one_versus_all_labels ![(2 : ℤ)] 2 = none := by decide

/-- C4 amended: the encoder performs no explicit validation; a label `≥ m` or
`< -m` makes the numpy assignment fail with `IndexError`, so no output is
produced at all, and a label in `[-m, -1]` silently wraps around to column
`m + label`.  Consequently every row of any matrix the encoder does produce
has exactly one `+1` entry — a row with no `+1` entry is never produced. -/
theorem C4_out_of_range {n m : ℕ} (y : Fin n → ℤ) :
    (make_one_versus_all_labels y m = none ↔ ∃ i, (m : ℤ) ≤ y i ∨ y i < -(m : ℤ)) ∧
    (∀ M, make_one_versus_all_labels y m = some M → ∀ i, ∃! j, M i j = 1) ∧
    (∀ M, make_one_versus_all_labels y m = some M → ∀ i, y i < 0 →
      ∃ j : Fin m, (j : ℤ) = y i + m ∧ M i j = 1) := by
  refine ⟨?_, ?_, ?_⟩
  · constructor
    · intro hnone
      unfold make_one_versus_all_labels at hnone
      by_cases h : ∀ i, (npIdx m (y i)).isSome
      · rw [dif_pos h] at hnone
        exact (Option.some_ne_none _ hnone).elim
      · rw [not_forall] at h
        obtain ⟨i, hi⟩ := h
        rw [Option.not_isSome_iff_eq_none] at hi
        exact ⟨i, npIdx_eq_none_iff.mp hi⟩
    · rintro ⟨i, hi⟩
      unfold make_one_versus_all_labels
      rw [dif_neg]
      intro hall
      have := hall i
      rw [npIdx_eq_none_iff.mpr hi] at this
      simp at this
  · intro M hM i
    unfold make_one_versus_all_labels at hM
    by_cases h : ∀ i, (npIdx m (y i)).isSome
    · rw [dif_pos h] at hM
      have hMdef := Option.some.inj hM
      subst hMdef
      refine ⟨(npIdx m (y i)).get (h i), by simp, ?_⟩
      intro j' hj'
      by_contra hne
      rw [Matrix.of_apply, if_neg hne] at hj'
      norm_num at hj'
    · rw [dif_neg h] at hM
      exact Option.noConfusion hM
  · intro M hM i hneg
    unfold make_one_versus_all_labels at hM
    by_cases h : ∀ i, (npIdx m (y i)).isSome
    · rw [dif_pos h] at hM
      have hMdef := Option.some.inj hM
      subst hMdef
      have hge : -(m : ℤ) ≤ y i := by
        by_contra hlt
        have := h i
        rw [npIdx_eq_none_iff.mpr (Or.inr (by omega))] at this
        simp at this
      have hidx := npIdx_of_neg hge hneg
      refine ⟨⟨(y i + m).toNat, by omega⟩, by simp; omega, ?_⟩
      simp [Matrix.of_apply, hidx, Option.get_some]
    · rw [dif_neg h] at hM
      exact Option.noConfusion hM
/-! ### Claims C1, C2 and C9: loss and gradient

The `spec…` definitions below are not translated from the source: they follow
the specification's words (§4.2) and are compared against the embedded code. -/

/-- Spec §4.2: `margins = 2 − (X·W) ⊙ Y`. -/
def specMargins {n F m : ℕ} (x : Matrix (Fin n) (Fin F) ℚ) (w : Matrix (Fin F) (Fin m) ℚ)
    (y : Matrix (Fin n) (Fin m) ℚ) : Matrix (Fin n) (Fin m) ℚ :=
  Matrix.of fun i j => 2 - (x * w) i j * y i j

/-- Spec §4.2: `active = 1` where `margins > 0` else `0`. -/
def specActive {n F m : ℕ} (x : Matrix (Fin n) (Fin F) ℚ) (w : Matrix (Fin F) (Fin m) ℚ)
    (y : Matrix (Fin n) (Fin m) ℚ) : Matrix (Fin n) (Fin m) ℚ :=
  Matrix.of fun i j => if 0 < specMargins x w y i j then 1 else 0

/-- Spec §4.2: `subgrad_loss = −(2/n) · Xᵗ · (Y ⊙ max(0, margins) ⊙ active)`. -/
def specSubgradLoss {n F m : ℕ} (x : Matrix (Fin n) (Fin F) ℚ) (w : Matrix (Fin F) (Fin m) ℚ)
    (y : Matrix (Fin n) (Fin m) ℚ) : Matrix (Fin F) (Fin m) ℚ :=
  (-(2 / (n : ℚ))) • (xᵀ * Matrix.of fun i j =>
    y i j * max 0 (specMargins x w y i j) * specActive x w y i j)

/-- Spec §4.2: the full sub-gradient `subgrad_loss + C·W`. -/
def specGradient {n F m : ℕ} (x : Matrix (Fin n) (Fin F) ℚ) (w : Matrix (Fin F) (Fin m) ℚ)
    (y : Matrix (Fin n) (Fin m) ℚ) (C : ℚ) : Matrix (Fin F) (Fin m) ℚ :=
  specSubgradLoss x w y + C • w

/-- Spec §4.2: the squared Frobenius norm of `w`, the sum of the squares of
all weight entries — the regulariser the specification claims the loss uses. -/
def frobSqSum {F m : ℕ} (w : Matrix (Fin F) (Fin m) ℚ) : ℚ := ∑ i, ∑ j, w i j ^ 2

/-- Spec §4.2: `loss = hinge + reg` with `hinge` the squared-hinge sum
normalised by `n` and `reg = (C/2) ·` squared-Frobenius-norm of `w`. -/
def specLoss {n F m : ℕ} (x : Matrix (Fin n) (Fin F) ℚ) (y : Matrix (Fin n) (Fin m) ℚ)
    (w : Matrix (Fin F) (Fin m) ℚ) (C : ℚ) : ℚ :=
  1 / (n : ℚ) * hingeSqSum x w y + C / 2 * frobSqSum w

/-- C2: for every weight matrix, every `C`, and every `X`, `Y` of matching
shapes, `compute_gradient` returns exactly the matrix
`−(2/n)·Xᵗ·(Y ⊙ max(0, margins) ⊙ active) + C·W` of shape `F × m` described by
the specification, where `margins = 2 − (X·W) ⊙ Y` and `active` is the 0/1
indicator of `margins > 0`. -/
theorem C2_gradient_formula {n F m : ℕ} (x : Matrix (Fin n) (Fin F) ℚ)
    (y : Matrix (Fin n) (Fin m) ℚ) (w : Matrix (Fin F) (Fin m) ℚ) (C : ℚ) :
    compute_gradient x y w C = specGradient x w y C := by
  unfold compute_gradient specGradient specSubgradLoss specActive specMargins
  simp only [neg_div, Matrix.of_apply]

/-- C9: the loss is non-negative for every input with at least one row and
every non-negative regularisation strength. -/
theorem C9_loss_nonneg {n F m : ℕ} (x : Matrix (Fin n) (Fin F) ℚ)
    (y : Matrix (Fin n) (Fin m) ℚ) (w : Matrix (Fin F) (Fin m) ℚ) (C : ℚ)
    (hn : 0 < n) (hC : 0 ≤ C) : 0 ≤ compute_loss x y w C := by
  unfold compute_loss
  have h1 : 0 ≤ hingeSqSum x w y :=
    Finset.sum_nonneg fun i _ => Finset.sum_nonneg fun j _ => sq_nonneg _
  have h2 : (0 : ℝ) ≤ ((1 / (n : ℚ) * hingeSqSum x w y : ℚ) : ℝ) := by
    have : 0 ≤ 1 / (n : ℚ) * hingeSqSum x w y := mul_nonneg (by positivity) h1
    exact_mod_cast this
  have h3 : (0 : ℝ) ≤ (C : ℝ) / 2 * npLinalgNorm2 w ^ 2 := by
    apply mul_nonneg
    · have : (0 : ℝ) ≤ (C : ℝ) := by exact_mod_cast hC
      linarith
    · exact sq_nonneg _
  linarith

/-- Witness for C9 at `n = 1`, `F = m = 2`, `C = 2`. -/
theorem C9_loss_nonneg_witness :
    0 ≤ compute_loss !![(0 : ℚ), 0] !![(1 : ℚ), 1] (1 : Matrix (Fin 2) (Fin 2) ℚ) 2 :=
  C9_loss_nonneg !![(0 : ℚ), 0] !![(1 : ℚ), 1] (1 : Matrix (Fin 2) (Fin 2) ℚ) 2
    (by decide) (by norm_num)

/-- The matrix 2-norm of the 2×2 identity is 1 (its largest singular value),
whereas its squared Frobenius norm is 2 — the quantity the two notions of
`norm(w, ord=2)` disagree on in claim C1. -/
lemma npLinalgNorm2_one : npLinalgNorm2 (1 : Matrix (Fin 2) (Fin 2) ℚ) = 1 := by
  have h1 : ((1 : Matrix (Fin 2) (Fin 2) ℚ).map fun q => (q : ℝ)) = 1 := by
    ext i j
    by_cases h : i = j <;> simp [Matrix.one_apply, h]
  rw [npLinalgNorm2, h1]
  have h2 : Matrix.toEuclideanLin (1 : Matrix (Fin 2) (Fin 2) ℝ) = LinearMap.id := by
    apply LinearMap.ext
    intro v
    simp [Matrix.toEuclideanLin_apply, Matrix.one_mulVec]
  rw [h2]
  have h3 : (LinearMap.id :
        EuclideanSpace ℝ (Fin 2) →ₗ[ℝ] EuclideanSpace ℝ (Fin 2)).toContinuousLinearMap
      = ContinuousLinearMap.id ℝ (EuclideanSpace ℝ (Fin 2)) := by
    ext v
    simp
  rw [h3]
  have : Nontrivial (EuclideanSpace ℝ (Fin 2)) := by
    refine ⟨(WithLp.equiv 2 _).symm 0, (WithLp.equiv 2 _).symm 1, fun h => ?_⟩
    have := congrArg (fun z => WithLp.equiv 2 (Fin 2 → ℝ) z 0) h
    simp at this
  exact ContinuousLinearMap.norm_id

/-- C1, settled against the code: at `X = [[0,0]]`, `Y = [[1,1]]`, `W = I₂`,
`C = 2`, the code's loss is `8 + (C/2)·σ_max(W)² = 9` because
`np.linalg.norm(w, ord=2)` on a 2-D array is the spectral norm, while the
loss the claim (and the gradient code, whose regulariser gradient is `C·W`)
describes is `8 + (C/2)·‖W‖_F² = 10`.  The two disagree. -/
theorem C1_regularization_code_bug :
    compute_loss !![(0 : ℚ), 0] !![(1 : ℚ), 1] (1 : Matrix (Fin 2) (Fin 2) ℚ) 2 = 9 ∧
    specLoss !![(0 : ℚ), 0] !![(1 : ℚ), 1] (1 : Matrix (Fin 2) (Fin 2) ℚ) 2 = 10 ∧
    compute_loss !![(0 : ℚ), 0] !![(1 : ℚ), 1] (1 : Matrix (Fin 2) (Fin 2) ℚ) 2
      ≠ ((specLoss !![(0 : ℚ), 0] !![(1 : ℚ), 1] (1 : Matrix (Fin 2) (Fin 2) ℚ) 2 : ℚ) : ℝ) := by
  have hh : hingeSqSum !![(0 : ℚ), 0] (1 : Matrix (Fin 2) (Fin 2) ℚ) !![(1 : ℚ), 1] = 8 := by
    norm_num [hingeSqSum, Matrix.mul_apply, Fin.sum_univ_succ, Matrix.one_apply]
  have hf : frobSqSum (1 : Matrix (Fin 2) (Fin 2) ℚ) = 2 := by
    norm_num [frobSqSum, Fin.sum_univ_succ, Matrix.one_apply]
  have hcode : compute_loss !![(0 : ℚ), 0] !![(1 : ℚ), 1] (1 : Matrix (Fin 2) (Fin 2) ℚ) 2 = 9 := by
    rw [compute_loss, hh, npLinalgNorm2_one]
    norm_num
  have hspec : specLoss !![(0 : ℚ), 0] !![(1 : ℚ), 1] (1 : Matrix (Fin 2) (Fin 2) ℚ) 2 = 10 := by
    rw [specLoss, hh, hf]
    norm_num
  refine ⟨hcode, hspec, ?_⟩
  rw [hcode, hspec]
  norm_num

example : npIdx 3 (-1) = some 2 := by decide
example : npIdx 3 3 = none := by decide
example : (make_one_versus_all_labels ![(0 : ℤ), 1] 2).map
    (fun M => List.ofFn fun i => rowList M i) = some [[1, -1], [-1, 1]] := by decide
example : make_one_versus_all_labels ![(2 : ℤ)] 2 = none := by decide
example : minibatch [(1 : ℤ), 2, 3] [(4 : ℤ), 5, 6] 2 = [([1, 2], [4, 5]), ([3], [6])] := by decide

/-! ### Claim C6: the batcher partitions the rows in order -/

lemma range'_map_add {γ : Type*} (d s : ℕ) (f : ℕ → γ) :
    ∀ (k a : ℕ), (List.range' (a + d) k s).map f = (List.range' a k s).map fun x => f (x + d)
  | 0, _ => rfl
  | k + 1, a => by
    rw [List.range'_succ, List.range'_succ, List.map_cons, List.map_cons,
      show a + d + s = a + s + d by omega, range'_map_add d s f k (a + s)]

lemma pySlice_drop {α : Type*} (xs : List α) (d a b : ℕ) :
    pySlice (xs.drop d) a b = pySlice xs (a + d) (b + d) := by
  unfold pySlice
  rw [List.take_drop, List.drop_drop, show d + a = a + d by omega, show d + b = b + d by omega]

lemma minibatch_empty {α β : Type*} (l2 : List β) (size : ℕ) :
    minibatch ([] : List α) l2 size = [] := by
  unfold minibatch pyRange
  have h : (List.length ([] : List α) + size - 1) / size = 0 := by
    rcases Nat.eq_zero_or_pos size with h | h
    · simp [h]
    · exact Nat.div_eq_of_lt (by simp; omega)
  rw [h]
  rfl

/-- The inductive engine behind C6: for lists of equal length and a positive
batch size, the chunks concatenate back to the originals in order, and every
chunk but the last has exactly `size` rows. -/
lemma minibatch_parts {α β : Type*} (size : ℕ) (hs : 0 < size) :
    ∀ (N : ℕ) (l1 : List α) (l2 : List β), l1.length ≤ N → l2.length = l1.length →
      ((minibatch l1 l2 size).map Prod.fst).flatten = l1 ∧
      ((minibatch l1 l2 size).map Prod.snd).flatten = l2 ∧
      ∀ c ∈ (minibatch l1 l2 size).dropLast, c.1.length = size ∧ c.2.length = size := by
  intro N
  induction N with
  | zero =>
    intro l1 l2 h1 h2
    have e1 : l1 = [] := List.length_eq_zero.mp (Nat.le_zero.mp h1)
    have e2 : l2 = [] := List.length_eq_zero.mp (by omega)
    subst e1
    subst e2
    simp [minibatch_empty]
  | succ N ih =>
    intro l1 l2 h1 h2
    by_cases hnil : l1.length = 0
    · have e1 : l1 = [] := List.length_eq_zero.mp hnil
      have e2 : l2 = [] := List.length_eq_zero.mp (by omega)
      subst e1
      subst e2
      simp [minibatch_empty]
    · by_cases hle : l1.length ≤ size
      · -- a single chunk containing everything
        have hcount : (l1.length + size - 1) / size = 1 :=
          Nat.div_eq_of_lt_le (by omega) (by omega)
        have hmb : minibatch l1 l2 size
            = [(pySlice l1 0 (min size l1.length), pySlice l2 0 (min size l1.length))] := by
          unfold minibatch pyRange
          rw [hcount]
          simp [List.range'_one]
        have hmin : min size l1.length = l1.length := by omega
        have hc1 : pySlice l1 0 (min size l1.length) = l1 := by
          rw [hmin]
          unfold pySlice
          rw [List.take_length, List.drop_zero]
        have hc2 : pySlice l2 0 (min size l1.length) = l2 := by
          rw [hmin, ← h2]
          unfold pySlice
          rw [List.take_length, List.drop_zero]
        rw [hmb, hc1, hc2]
        refine ⟨by simp, by simp, ?_⟩
        intro c hc
        simp at hc
      · -- the head chunk has exactly `size` rows, the rest recurses
        have hgt : size < l1.length := by omega
        have hcount : (l1.length + size - 1) / size = (l1.length - 1) / size + 1 := by
          rw [show l1.length + size - 1 = (l1.length - 1) + size by omega,
            Nat.add_div_right _ hs]
        have hmb : minibatch l1 l2 size
            = (pySlice l1 0 (min size l1.length), pySlice l2 0 (min size l1.length))
              :: minibatch (l1.drop size) (l2.drop size) size := by
          unfold minibatch pyRange
          rw [hcount, List.range'_succ, List.map_cons]
          congr 1
          · rw [Nat.zero_add]
          · rw [show 0 + size = size from Nat.zero_add size] at *
            have hshift := range'_map_add size size
              (fun ndx => (pySlice l1 ndx (min (ndx + size) l1.length),
                pySlice l2 ndx (min (ndx + size) l1.length)))
              ((l1.length - 1) / size) 0
            rw [show (0 + size : ℕ) = size from Nat.zero_add size] at hshift
            rw [hshift]
            have hlen' : (l1.drop size).length = l1.length - size := List.length_drop size l1
            have hcount' : ((l1.drop size).length + size - 1) / size = (l1.length - 1) / size := by
              rw [hlen', show l1.length - size + size - 1 = l1.length - 1 by omega]
            rw [hcount']
            apply List.map_congr_left
            intro ndx _
            have hb : min (ndx + size) ((l1.drop size).length) + size
                = min (ndx + size + size) l1.length := by
              rw [hlen']
              omega
            rw [pySlice_drop l1 size ndx, pySlice_drop l2 size ndx, hb]
        have hmin : min size l1.length = size := by omega
        have hc1 : pySlice l1 0 (min size l1.length) = l1.take size := by
          rw [hmin]
          unfold pySlice
          rw [List.drop_zero]
        have hc2 : pySlice l2 0 (min size l1.length) = l2.take size := by
          rw [hmin]
          unfold pySlice
          rw [List.drop_zero]
        obtain ⟨ih1, ih2, ih3⟩ := ih (l1.drop size) (l2.drop size)
          (by rw [List.length_drop]; omega) (by rw [List.length_drop, List.length_drop]; omega)
        have htail_ne : minibatch (l1.drop size) (l2.drop size) size ≠ [] := by
          intro hnil2
          have : (l1.drop size).length = 0 := by
            have := congrArg (fun l => (l.map Prod.fst).flatten.length) hnil2
            simp only at this
            rw [ih1] at this
            simpa using this
          rw [List.length_drop] at this
          omega
        refine ⟨?_, ?_, ?_⟩
        · rw [hmb, List.map_cons, List.flatten_cons, hc1, ih1, List.take_append_drop]
        · rw [hmb, List.map_cons, List.flatten_cons, hc2, ih2, List.take_append_drop]
        · rw [hmb, List.dropLast_cons_of_ne_nil htail_ne]
          intro c hc
          rcases List.mem_cons.mp hc with hhead | htail
          · subst hhead
            constructor
            · rw [hc1, List.length_take]
              omega
            · rw [hc2, List.length_take]
              omega
          · exact ih3 c htail

/-- C6: for equally long row lists and any positive batch size, concatenating
the chunks of `minibatch` in order reconstructs both inputs exactly, and every
chunk except possibly the last has exactly `size` rows. -/
theorem C6_minibatch_partition {α β : Type*} (it1 : List α) (it2 : List β) (size : ℕ)
    (hs : 0 < size) (hlen : it2.length = it1.length) :
    ((minibatch it1 it2 size).map Prod.fst).flatten = it1 ∧
    ((minibatch it1 it2 size).map Prod.snd).flatten = it2 ∧
    ∀ c ∈ (minibatch it1 it2 size).dropLast, c.1.length = size ∧ c.2.length = size :=
  minibatch_parts size hs it1.length it1 it2 le_rfl hlen

/-- Witness for C6 at `it1 = [1,2,3]`, `it2 = [4,5,6]`, `size = 2` (a run with
a shorter final chunk). -/
theorem C6_minibatch_partition_witness :
    ((minibatch [(1 : ℤ), 2, 3] [(4 : ℤ), 5, 6] 2).map Prod.fst).flatten = [(1 : ℤ), 2, 3] ∧
    ((minibatch [(1 : ℤ), 2, 3] [(4 : ℤ), 5, 6] 2).map Prod.snd).flatten = [(4 : ℤ), 5, 6] ∧
    ∀ c ∈ (minibatch [(1 : ℤ), 2, 3] [(4 : ℤ), 5, 6] 2).dropLast,
      c.1.length = 2 ∧ c.2.length = 2 :=
  C6_minibatch_partition [(1 : ℤ), 2, 3] [(4 : ℤ), 5, 6] 2 (by decide) (by decide)

/-! ### Claims C7 and C8: inference and accuracy -/

lemma rowList_length {n m : ℕ} {α : Type*} (A : Matrix (Fin n) (Fin m) α) (i : Fin n) :
    (rowList A i).length = m := List.length_ofFn _

lemma rowList_ne_nil {n m : ℕ} {α : Type*} (A : Matrix (Fin n) (Fin m) α) (i : Fin n)
    (hm : 0 < m) : rowList A i ≠ [] :=
  List.length_pos.mp (by rw [rowList_length]; exact hm)

lemma rowList_get {n m : ℕ} {α : Type*} (A : Matrix (Fin n) (Fin m) α) (i : Fin n)
    (j : ℕ) (hj : j < (rowList A i).length) :
    (rowList A i).get ⟨j, hj⟩ = A i ⟨j, by rw [rowList_length] at hj; exact hj⟩ := by
  unfold rowList
  rw [List.get_ofFn]
  exact congrArg _ (Fin.ext rfl)

/-- C7: for a weight matrix with at least one class column, `infer` computes
the scores `X·W`, selects for each row the class of maximal score breaking
ties in favour of the lowest column index, and returns the one-vs-all
re-encoding of those choices. -/
theorem C7_infer_argmax {p F m : ℕ} (x : Matrix (Fin p) (Fin F) ℚ)
    (w : Matrix (Fin F) (Fin m) ℚ) (hm : 0 < m) :
    ∃ pred : Fin p → Fin m,
      infer x w = some (Matrix.of fun i j => if j = pred i then 1 else -1) ∧
      ∀ i, (∀ j, (x * w) i j ≤ (x * w) i (pred i)) ∧
           (∀ j, j < pred i → (x * w) i j < (x * w) i (pred i)) := by
  have hbound : ∀ i, npArgmax (rowList (x * w) i) < m := by
    intro i
    obtain ⟨hlt, -, -⟩ := npArgmax_spec (rowList (x * w) i) (rowList_ne_nil _ i hm)
    rw [rowList_length] at hlt
    exact hlt
  refine ⟨fun i => ⟨npArgmax (rowList (x * w) i), hbound i⟩, ?_, ?_⟩
  · unfold infer
    rw [make_one_versus_all_labels_of_valid _ (fun i => ⟨Int.ofNat_nonneg _, by
      exact_mod_cast hbound i⟩)]
    congr 1
    ext i j
    simp only [Matrix.of_apply]
    refine if_congr ?_ rfl rfl
    rw [Fin.ext_iff]
    constructor
    · intro h
      exact_mod_cast h
    · intro h
      exact_mod_cast h
  · intro i
    obtain ⟨hlt, hmax, hfirst⟩ := npArgmax_spec (rowList (x * w) i) (rowList_ne_nil _ i hm)
    constructor
    · intro j
      have hj : (j : ℕ) < (rowList (x * w) i).length := by
        rw [rowList_length]; exact j.isLt
      have h := hmax (j : ℕ) hj
      rw [rowList_get, rowList_get] at h
      simpa using h
    · intro j hj
      have h := hfirst (j : ℕ) hj
      rw [rowList_get, rowList_get] at h
      simpa using h

/-- Witness for C7 at `x = [[1]]`, `w = [[1]]`. -/
theorem C7_infer_argmax_witness :
    ∃ pred : Fin 1 → Fin 1,
      infer !![(1 : ℚ)] !![(1 : ℚ)] = some (Matrix.of fun i j => if j = pred i then 1 else -1) ∧
      ∀ i, (∀ j, (!![(1 : ℚ)] * !![(1 : ℚ)]) i j ≤ (!![(1 : ℚ)] * !![(1 : ℚ)]) i (pred i)) ∧
           (∀ j, j < pred i →
             (!![(1 : ℚ)] * !![(1 : ℚ)]) i j < (!![(1 : ℚ)] * !![(1 : ℚ)]) i (pred i)) :=
  C7_infer_argmax !![(1 : ℚ)] !![(1 : ℚ)] (by decide)

/-- C8: `compute_accuracy` argmax-decodes both matrices and returns the
fraction of rows whose decoded class ids agree — a scalar in `[0, 1]` — and on
the spec's concrete scenario (`Y_pred` the one-vs-all encoding of `[0,1,1]`,
`Y_true` that of `[0,1,0]`, `m = 2`) it returns exactly `2/3`. -/
theorem C8_accuracy_fraction :
    (∀ (p m : ℕ) (y_inferred y : Matrix (Fin p) (Fin m) ℤ),
        0 ≤ compute_accuracy y_inferred y ∧ compute_accuracy y_inferred y ≤ 1) ∧
    (∃ Mp Mt, make_one_versus_all_labels ![(0 : ℤ), 1, 1] 2 = some Mp ∧
        make_one_versus_all_labels ![(0 : ℤ), 1, 0] 2 = some Mt ∧
        compute_accuracy Mp Mt = 2 / 3) := by
  constructor
  · intro p m y_inferred y
    unfold compute_accuracy
    constructor
    · apply div_nonneg
      · exact_mod_cast Nat.zero_le _
      · exact_mod_cast Nat.zero_le _
    · rcases Nat.eq_zero_or_pos p with hp | hp
      · subst hp
        norm_num
      · apply div_le_one_of_le₀
        · have hcard : (Finset.univ.filter fun i =>
              npArgmax (rowList y_inferred i) = npArgmax (rowList y i)).card ≤ p := by
            calc (Finset.univ.filter fun i =>
                npArgmax (rowList y_inferred i) = npArgmax (rowList y i)).card
                ≤ Finset.univ.card := Finset.card_filter_le _ _
              _ = p := by simp
          exact_mod_cast hcard
        · exact_mod_cast Nat.zero_le _
  · refine ⟨_, _, make_one_versus_all_labels_of_valid ![(0 : ℤ), 1, 1] (by decide),
      make_one_versus_all_labels_of_valid ![(0 : ℤ), 1, 0] (by decide), ?_⟩
    unfold compute_accuracy
    have hcard : (Finset.univ.filter fun i : Fin 3 =>
        npArgmax (rowList (Matrix.of fun (i : Fin 3) (j : Fin 2) =>
          if (j : ℤ) = ![(0 : ℤ), 1, 1] i then 1 else -1) i)
        = npArgmax (rowList (Matrix.of fun (i : Fin 3) (j : Fin 2) =>
          if (j : ℤ) = ![(0 : ℤ), 1, 0] i then 1 else -1) i)).card = 2 := by
      decide
    rw [hcard]
    norm_num

/-! ### Claims C5 and C10: the training loop `SVM.fit` -/

/-- `self.m = y_train.max() + 1` from `SVM.fit`.  Labels are class ids, hence
non-negative (data model §3, and the theorems below hypothesise it), so
`Int.toNat` is the identity on them and this is the numpy maximum plus one. -/
def mFit {ntr : ℕ} (y_train : Fin ntr → ℤ) : ℕ :=
  (Finset.univ.sup fun i => (y_train i).toNat) + 1

/-- The numpy row slice `A[ndx : min(ndx + size, n)]` a mini-batch consists
of: rows `ndx ≤ r < min (ndx + size) n` of `A`. -/
def sliceRows {n c : ℕ} (A : Matrix (Fin n) (Fin c) ℚ) (ndx size : ℕ) :
    Matrix (Fin (min (ndx + size) n - ndx)) (Fin c) ℚ :=
  Matrix.of fun i j => A ⟨ndx + (i : ℕ), by have hi := i.isLt; omega⟩ j

/-- One epoch of `SVM.fit`: the for-loop over
`self.minibatch(x_train, y_train, size=batch_size)`, which yields the row
slices at offsets `range(0, ntr, batch_size)` in order; each yields the update
`w ← w − eta · compute_gradient(x_batch, y_batch)` on the current weights. -/
def epochStep {ntr F m : ℕ} (eta C : ℚ) (batch_size : ℕ)
    (x_train : Matrix (Fin ntr) (Fin F) ℚ) (Yq : Matrix (Fin ntr) (Fin m) ℚ)
    (w : Matrix (Fin F) (Fin m) ℚ) : Matrix (Fin F) (Fin m) ℚ :=
  (pyRange ntr batch_size).foldl
    (fun w' ndx => w' - eta • compute_gradient
      (sliceRows x_train ndx batch_size) (sliceRows Yq ndx batch_size) w' C) w

/-- The weight matrix after `k` complete epochs, starting from
`np.zeros([num_features, m])`. -/
def epochW {ntr F m : ℕ} (eta C : ℚ) (batch_size : ℕ)
    (x_train : Matrix (Fin ntr) (Fin F) ℚ) (Yq : Matrix (Fin ntr) (Fin m) ℚ) (k : ℕ) :
    Matrix (Fin F) (Fin m) ℚ :=
  (epochStep eta C batch_size x_train Yq)^[k] 0

/-- The epoch loop of `SVM.fit` with the given number of epochs left: each
iteration trains one pass of mini-batch updates, then measures loss and
accuracy on the full training set and on the full test set with the
post-epoch weights, and appends the four metrics to the histories in order.
The encoded labels are integer matrices and are broadcast to rationals where
the arithmetic needs it, as numpy broadcasts ints to floats; `infer` always
returns `some` here because `m ≥ 1` in `fit`, and its `Option` is unwrapped
with a zero-matrix default. -/
noncomputable def fitAux {ntr nte F m : ℕ} (eta C : ℚ) (batch_size : ℕ)
    (x_train : Matrix (Fin ntr) (Fin F) ℚ) (y_train : Matrix (Fin ntr) (Fin m) ℤ)
    (x_test : Matrix (Fin nte) (Fin F) ℚ) (y_test : Matrix (Fin nte) (Fin m) ℤ)
    (w : Matrix (Fin F) (Fin m) ℚ) :
    ℕ → List ℝ × List ℚ × List ℝ × List ℚ
  | 0 => ([], [], [], [])
  | niter + 1 =>
    let w' := epochStep eta C batch_size x_train (y_train.map fun z => (z : ℚ)) w
    let train_loss := compute_loss x_train (y_train.map fun z => (z : ℚ)) w' C
    let train_accuracy := compute_accuracy ((infer x_train w').getD 0) y_train
    let test_loss := compute_loss x_test (y_test.map fun z => (z : ℚ)) w' C
    let test_accuracy := compute_accuracy ((infer x_test w').getD 0) y_test
    let rest := fitAux eta C batch_size x_train y_train x_test y_test w' niter
    (train_loss :: rest.1, train_accuracy :: rest.2.1,
     test_loss :: rest.2.2.1, test_accuracy :: rest.2.2.2)

/-- `SVM.fit(x_train, y_train, x_test, y_test)`: stores `num_features`,
derives `m = y_train.max() + 1`, one-vs-all encodes both label vectors with
that `m` (an out-of-range test label raises `IndexError`, modelled `none`),
zero-initialises `w`, runs `niter` epochs of mini-batch sub-gradient descent,
and returns the four per-epoch metric histories. -/
noncomputable def fit {ntr nte F : ℕ} (eta C : ℚ) (niter batch_size : ℕ)
    (x_train : Matrix (Fin ntr) (Fin F) ℚ) (y_train : Fin ntr → ℤ)
    (x_test : Matrix (Fin nte) (Fin F) ℚ) (y_test : Fin nte → ℤ) :
    Option (List ℝ × List ℚ × List ℝ × List ℚ) :=
  match make_one_versus_all_labels y_train (mFit y_train),
        make_one_versus_all_labels y_test (mFit y_train) with
  | some Ytr, some Yte =>
      some (fitAux eta C batch_size x_train Ytr x_test Yte 0 niter)
  | _, _ => none

/-- The instance attributes `SVM.fit` stores on `self` for later calls:
`self.num_features`, `self.m`, and the weight matrix `self.w`. -/
structure FitState (F m : ℕ) where
  num_features : ℕ
  num_classes : ℕ
  w : Matrix (Fin F) (Fin m) ℚ

/-- The instance state a successful `SVM.fit` call leaves behind:
`num_features = x_train.shape[1]`, `num_classes = y_train.max() + 1`, and the
trained weight matrix after all `niter` epochs. -/
noncomputable def fitState {ntr nte F : ℕ} (eta C : ℚ) (niter batch_size : ℕ)
    (x_train : Matrix (Fin ntr) (Fin F) ℚ) (y_train : Fin ntr → ℤ) (y_test : Fin nte → ℤ) :
    Option (FitState F (mFit y_train)) :=
  match make_one_versus_all_labels y_train (mFit y_train),
        make_one_versus_all_labels y_test (mFit y_train) with
  | some Ytr, some _ =>
      some ⟨F, mFit y_train,
        epochW eta C batch_size x_train (Ytr.map fun z => (z : ℚ)) niter⟩
  | _, _ => none

/-- Structural description of the epoch loop: all four histories have one
entry per epoch, and the entry for epoch `k` is the corresponding metric
evaluated with the weights after `k + 1` epoch updates from `w`. -/
lemma fitAux_spec {ntr nte F m : ℕ} (eta C : ℚ) (bs : ℕ)
    (x_train : Matrix (Fin ntr) (Fin F) ℚ) (Ytr : Matrix (Fin ntr) (Fin m) ℤ)
    (x_test : Matrix (Fin nte) (Fin F) ℚ) (Yte : Matrix (Fin nte) (Fin m) ℤ) :
    ∀ (niter : ℕ) (w : Matrix (Fin F) (Fin m) ℚ),
      (fitAux eta C bs x_train Ytr x_test Yte w niter).1.length = niter ∧
      (fitAux eta C bs x_train Ytr x_test Yte w niter).2.1.length = niter ∧
      (fitAux eta C bs x_train Ytr x_test Yte w niter).2.2.1.length = niter ∧
      (fitAux eta C bs x_train Ytr x_test Yte w niter).2.2.2.length = niter ∧
      ∀ k, k < niter →
        (fitAux eta C bs x_train Ytr x_test Yte w niter).1[k]?
          = some (compute_loss x_train (Ytr.map fun z => (z : ℚ))
              ((epochStep eta C bs x_train (Ytr.map fun z => (z : ℚ)))^[k + 1] w) C) ∧
        (fitAux eta C bs x_train Ytr x_test Yte w niter).2.1[k]?
          = some (compute_accuracy ((infer x_train
              ((epochStep eta C bs x_train (Ytr.map fun z => (z : ℚ)))^[k + 1] w)).getD 0) Ytr) ∧
        (fitAux eta C bs x_train Ytr x_test Yte w niter).2.2.1[k]?
          = some (compute_loss x_test (Yte.map fun z => (z : ℚ))
              ((epochStep eta C bs x_train (Ytr.map fun z => (z : ℚ)))^[k + 1] w) C) ∧
        (fitAux eta C bs x_train Ytr x_test Yte w niter).2.2.2[k]?
          = some (compute_accuracy ((infer x_test
              ((epochStep eta C bs x_train (Ytr.map fun z => (z : ℚ)))^[k + 1] w)).getD 0) Yte) := by
  intro niter
  induction niter with
  | zero =>
    intro w
    exact ⟨rfl, rfl, rfl, rfl, fun k hk => absurd hk (Nat.not_lt_zero k)⟩
  | succ niter ih =>
    intro w
    obtain ⟨ih1, ih2, ih3, ih4, ihk⟩ :=
      ih (epochStep eta C bs x_train (Ytr.map fun z => (z : ℚ)) w)
    refine ⟨?_, ?_, ?_, ?_, ?_⟩
    · simp only [fitAux, List.length_cons, ih1]
    · simp only [fitAux, List.length_cons, ih2]
    · simp only [fitAux, List.length_cons, ih3]
    · simp only [fitAux, List.length_cons, ih4]
    · intro k hk
      cases k with
      | zero =>
        refine ⟨?_, ?_, ?_, ?_⟩ <;>
          simp [fitAux, Function.iterate_one]
      | succ k =>
        obtain ⟨e1, e2, e3, e4⟩ := ihk k (by omega)
        refine ⟨?_, ?_, ?_, ?_⟩
        · simp only [fitAux, List.getElem?_cons_succ]
          rw [Function.iterate_succ_apply]
          exact e1
        · simp only [fitAux, List.getElem?_cons_succ]
          rw [Function.iterate_succ_apply]
          exact e2
        · simp only [fitAux, List.getElem?_cons_succ]
          rw [Function.iterate_succ_apply]
          exact e3
        · simp only [fitAux, List.getElem?_cons_succ]
          rw [Function.iterate_succ_apply]
          exact e4

/-- Every label of `y_train` lies in `[0, max(y_train) + 1)` once labels are
non-negative. -/
lemma mFit_valid {ntr : ℕ} (y_train : Fin ntr → ℤ) (hytr : ∀ i, 0 ≤ y_train i) :
    ∀ i, 0 ≤ y_train i ∧ y_train i < (mFit y_train : ℤ) := by
  intro i
  refine ⟨hytr i, ?_⟩
  have hsup : (y_train i).toNat ≤ Finset.univ.sup fun j => (y_train j).toNat :=
    @Finset.le_sup ℕ (Fin ntr) _ _ Finset.univ (fun j => (y_train j).toNat) i
      (Finset.mem_univ i)
  unfold mFit
  omega

/-- C5: a `fit` call with a positive epoch count, positive batch size and
valid labels runs exactly `niter` epochs, returning four histories of length
exactly `niter`, in which the entry for epoch `k` is the corresponding metric
computed on the full train or test set with the weight matrix as it stands
after all mini-batch updates of epoch `k`. -/
theorem C5_fit_histories {ntr nte F : ℕ} (eta C : ℚ) (niter batch_size : ℕ)
    (x_train : Matrix (Fin ntr) (Fin F) ℚ) (y_train : Fin ntr → ℤ)
    (x_test : Matrix (Fin nte) (Fin F) ℚ) (y_test : Fin nte → ℤ)
    (hniter : 0 < niter) (hbs : 0 < batch_size) (hntr : 0 < ntr)
    (hytr : ∀ i, 0 ≤ y_train i)
    (hyte : ∀ i, 0 ≤ y_test i ∧ y_test i < (mFit y_train : ℤ)) :
    ∃ Ytr Yte tl ta el ea,
      make_one_versus_all_labels y_train (mFit y_train) = some Ytr ∧
      make_one_versus_all_labels y_test (mFit y_train) = some Yte ∧
      fit eta C niter batch_size x_train y_train x_test y_test = some (tl, ta, el, ea) ∧
      tl.length = niter ∧ ta.length = niter ∧ el.length = niter ∧ ea.length = niter ∧
      ∀ k, k < niter →
        tl[k]? = some (compute_loss x_train (Ytr.map fun z => (z : ℚ))
          (epochW eta C batch_size x_train (Ytr.map fun z => (z : ℚ)) (k + 1)) C) ∧
        ta[k]? = some (compute_accuracy ((infer x_train
          (epochW eta C batch_size x_train (Ytr.map fun z => (z : ℚ)) (k + 1))).getD 0) Ytr) ∧
        el[k]? = some (compute_loss x_test (Yte.map fun z => (z : ℚ))
          (epochW eta C batch_size x_train (Ytr.map fun z => (z : ℚ)) (k + 1)) C) ∧
        ea[k]? = some (compute_accuracy ((infer x_test
          (epochW eta C batch_size x_train (Ytr.map fun z => (z : ℚ)) (k + 1))).getD 0) Yte) := by
  have hYtr := make_one_versus_all_labels_of_valid y_train (mFit_valid y_train hytr)
  have hYte := make_one_versus_all_labels_of_valid y_test hyte
  obtain ⟨l1, l2, l3, l4, hk⟩ := fitAux_spec eta C batch_size x_train
    (Matrix.of fun (i : Fin ntr) (j : Fin (mFit y_train)) =>
      if (j : ℤ) = y_train i then (1 : ℤ) else -1)
    x_test
    (Matrix.of fun (i : Fin nte) (j : Fin (mFit y_train)) =>
      if (j : ℤ) = y_test i then (1 : ℤ) else -1)
    niter 0
  refine ⟨_, _, _, _, _, _, hYtr, hYte, ?_, l1, l2, l3, l4, hk⟩
  unfold fit
  rw [hYtr, hYte]

/-- Witness for C5 at a one-example, one-feature dataset with one epoch. -/
theorem C5_fit_histories_witness :
    ∃ Ytr Yte tl ta el ea,
      make_one_versus_all_labels ![(0 : ℤ)] (mFit ![(0 : ℤ)]) = some Ytr ∧
      make_one_versus_all_labels ![(0 : ℤ)] (mFit ![(0 : ℤ)]) = some Yte ∧
      fit 1 0 1 1 !![(1 : ℚ)] ![(0 : ℤ)] !![(1 : ℚ)] ![(0 : ℤ)] = some (tl, ta, el, ea) ∧
      tl.length = 1 ∧ ta.length = 1 ∧ el.length = 1 ∧ ea.length = 1 ∧
      ∀ k, k < 1 →
        tl[k]? = some (compute_loss !![(1 : ℚ)] (Ytr.map fun z => (z : ℚ))
          (epochW 1 0 1 !![(1 : ℚ)] (Ytr.map fun z => (z : ℚ)) (k + 1)) 0) ∧
        ta[k]? = some (compute_accuracy ((infer !![(1 : ℚ)]
          (epochW 1 0 1 !![(1 : ℚ)] (Ytr.map fun z => (z : ℚ)) (k + 1))).getD 0) Ytr) ∧
        el[k]? = some (compute_loss !![(1 : ℚ)] (Yte.map fun z => (z : ℚ))
          (epochW 1 0 1 !![(1 : ℚ)] (Ytr.map fun z => (z : ℚ)) (k + 1)) 0) ∧
        ea[k]? = some (compute_accuracy ((infer !![(1 : ℚ)]
          (epochW 1 0 1 !![(1 : ℚ)] (Ytr.map fun z => (z : ℚ)) (k + 1))).getD 0) Yte) :=
  C5_fit_histories 1 0 1 1 !![(1 : ℚ)] ![(0 : ℤ)] !![(1 : ℚ)] ![(0 : ℤ)]
    (by decide) (by decide) (by decide) (by decide) (by decide)

/-- C10: beyond its return value, `fit` stores state on the model instance:
`num_features`, the derived class count `m = max(y_train) + 1`, and the
trained weight matrix; a later `infer` on the same instance therefore uses
the post-training weights without being handed them explicitly. -/
theorem C10_fit_stores_state {ntr nte F : ℕ} (eta C : ℚ) (niter batch_size : ℕ)
    (x_train : Matrix (Fin ntr) (Fin F) ℚ) (y_train : Fin ntr → ℤ) (y_test : Fin nte → ℤ)
    (hytr : ∀ i, 0 ≤ y_train i)
    (hyte : ∀ i, 0 ≤ y_test i ∧ y_test i < (mFit y_train : ℤ)) :
    ∃ Ytr s,
      make_one_versus_all_labels y_train (mFit y_train) = some Ytr ∧
      fitState eta C niter batch_size x_train y_train y_test = some s ∧
      s.num_features = F ∧
      s.num_classes = (Finset.univ.sup fun i => (y_train i).toNat) + 1 ∧
      s.w = epochW eta C batch_size x_train (Ytr.map fun z => (z : ℚ)) niter ∧
      ∀ (q : ℕ) (x : Matrix (Fin q) (Fin F) ℚ),
        infer x s.w
          = infer x (epochW eta C batch_size x_train (Ytr.map fun z => (z : ℚ)) niter) := by
  have hYtr := make_one_versus_all_labels_of_valid y_train (mFit_valid y_train hytr)
  have hYte := make_one_versus_all_labels_of_valid y_test hyte
  have hfs : fitState eta C niter batch_size x_train y_train y_test
      = some ⟨F, mFit y_train, epochW eta C batch_size x_train
          ((Matrix.of fun (i : Fin ntr) (j : Fin (mFit y_train)) =>
            if (j : ℤ) = y_train i then (1 : ℤ) else -1).map fun z => (z : ℚ)) niter⟩ := by
    unfold fitState
    rw [hYtr, hYte]
  exact ⟨_, _, hYtr, hfs, rfl, rfl, rfl, fun q x => rfl⟩

/-- Witness for C10 at the same one-example dataset. -/
theorem C10_fit_stores_state_witness :
    ∃ Ytr s,
      make_one_versus_all_labels ![(0 : ℤ)] (mFit ![(0 : ℤ)]) = some Ytr ∧
      fitState 1 0 1 1 !![(1 : ℚ)] ![(0 : ℤ)] ![(0 : ℤ)] = some s ∧
      s.num_features = 1 ∧
      s.num_classes = (Finset.univ.sup fun i => ((![(0 : ℤ)]) i).toNat) + 1 ∧
      s.w = epochW 1 0 1 !![(1 : ℚ)] (Ytr.map fun z => (z : ℚ)) 1 ∧
      ∀ (q : ℕ) (x : Matrix (Fin q) (Fin 1) ℚ),
        infer x s.w = infer x (epochW 1 0 1 !![(1 : ℚ)] (Ytr.map fun z => (z : ℚ)) 1) :=
  C10_fit_stores_state 1 0 1 1 !![(1 : ℚ)] ![(0 : ℤ)] ![(0 : ℤ)] (by decide) (by decide)

end SVMSpec
